import Mathlib

/-
  Verification of the registry engine of `nfs_exports.py`.

  Shallow embedding conventions:
  * A Python `str` is modelled as `List Char` (`PyStr`); `str.lower` is
    `Char.toLower` mapped over the list (identical on ASCII input).
  * A Python `dict` is modelled as an insertion-ordered association list;
    assignment overwrites in place when the key exists, otherwise appends.
  * Fallible Python code returns `Except PyErr _`; the exception classes that
    actually occur (`IOError`/`OSError`, `ValueError`, `LookupError`) become
    the constructors of `PyErr`.
  * The registry file is modelled as the list of line strings that Python
    file iteration yields (each line keeps its trailing newline character).
-/

set_option maxHeartbeats 1000000

abbrev PyStr := List Char

abbrev Entry := PyStr × PyStr × PyStr

abbrev Dict := List (PyStr × PyStr)

/-- Exception kinds raised by the source: `IOError`/`OSError` (the code treats
them alike), `ValueError` (tuple-unpack mismatch, unclosed shlex quote) and
`LookupError` (raised by `filter_export`). -/
inductive PyErr where
  | ioError
  | valueError
  | lookupError
deriving DecidableEq, Repr

deriving instance DecidableEq for Except

/-- Model of Python `s.split(c)` for a single-character separator: splits on
every occurrence, yields `[""]` on the empty string. -/
def splitOnChar (c : Char) : PyStr → List PyStr
  | [] => [[]]
  | x :: xs =>
    if x = c then [] :: splitOnChar c xs
    else
      match splitOnChar c xs with
      | t :: ts => (x :: t) :: ts
      | [] => [[x]]

/-- Model of Python `d[k] = v` on a dict: overwrite in place if `k` is
present, otherwise append at the end (insertion order). -/
def dictInsert (d : Dict) (k v : PyStr) : Dict :=
  if d.any (fun kv => kv.1 == k) then
    d.map (fun kv => if kv.1 == k then (k, v) else kv)
  else d ++ [(k, v)]

/-- Model of Python `d[k]` on a dict (first binding of `k`; the callers only
use it on keys that are present). -/
def dictLookup (d : Dict) (k : PyStr) : PyStr :=
  match d.find? (fun kv => kv.1 == k) with
  | some kv => kv.2
  | none => []

/-- The loop body of `_parse_options`: for each comma-token, if `'='` occurs
the token is split on every `'='` and unpacked into exactly two parts
(`ValueError` otherwise, as in `key, val = opt.split('=')`), else the token
is a flag with `key = val = token`. -/
def parseOptLoop : List PyStr → Dict → Except PyErr Dict
  | [], options => .ok options
  | opt :: rest, options =>
    if '=' ∈ opt then
      match splitOnChar '=' opt with
      | [key, val] => parseOptLoop rest (dictInsert options key val)
      | _ => .error .valueError
    else parseOptLoop rest (dictInsert options opt opt)

/-- Model of `_parse_options`: `None` yields `{}`, otherwise split the string
on `','` and run the loop starting from the empty dict. -/
def _parse_options (optionstring : Option PyStr) : Except PyErr Dict :=
  match optionstring with
  | none => .ok []
  | some s => parseOptLoop (splitOnChar ',' s) []

/-- Lexicographic comparison of code points, the order Python `sorted` uses
on strings. -/
def pyLe : PyStr → PyStr → Bool
  | [], _ => true
  | _ :: _, [] => false
  | a :: as, b :: bs => if a < b then true else if b < a then false else pyLe as bs

/-- Insert one string into a `pyLe`-sorted list. -/
def sortInsert (x : PyStr) : List PyStr → List PyStr
  | [] => [x]
  | y :: ys => if pyLe x y then x :: y :: ys else y :: sortInsert x ys

/-- Model of Python `sorted` on a list of strings (insertion sort; only the
resulting order matters for the embedding). -/
def pySort : List PyStr → List PyStr
  | [] => []
  | x :: xs => sortInsert x (pySort xs)

/-- Model of Python `",".join`. -/
def pyJoin (sep : Char) : List PyStr → PyStr
  | [] => []
  | [t] => t
  | t :: ts => t ++ sep :: pyJoin sep ts

/-- Model of `_print_options`: `None` passes through; keys are emitted in
sorted order, a key equal to its value is rendered bare, otherwise as
`key=value`; the empty dict yields `None`. -/
def _print_options (optionset : Option Dict) : Option PyStr :=
  match optionset with
  | none => none
  | some d =>
    let output := (pySort (d.map Prod.fst)).map (fun key =>
      if key == dictLookup d key then key else key ++ '=' :: dictLookup d key)
    if output.isEmpty then none else some (pyJoin ',' output)

/- ---------------------------------------------------------------------
   shlex: model of `shlex.split(line, '#')`, i.e. POSIX mode with
   `whitespace_split = True` and comments enabled.  The CPython lexer is a
   character state machine; `readline()` on a commenter is modelled as a
   dedicated comment state that skips to the next newline.
   --------------------------------------------------------------------- -/

/-- The `shlex.whitespace` character class. -/
def isShWhitespace (c : Char) : Bool :=
  c = ' ' || c = '\t' || c = '\r' || c = '\n'

/-- The `shlex.quotes` character class. -/
def isShQuote (c : Char) : Bool :=
  c = '\'' || c = '"'

/-- Lexer states of the CPython shlex state machine: outside a token (`' '`),
inside an unquoted token (`'a'`), skipping a comment (`readline()`), inside a
quote, or after an escape character.  `escapedstate` is `'"'` exactly when
the escape was met inside double quotes (the only member of
`escapedquotes`), recorded here as the Boolean `fromDq`. -/
inductive ShState where
  | space
  | word
  | comment
  | quoteS (q : Char)
  | escapeS (fromDq : Bool)
deriving DecidableEq, Repr

/-- One pass of the CPython `shlex.read_token` loop over the remaining input,
with the current state, accumulated token and `quoted` flag; returns the list
of emitted tokens.  EOF inside a quote raises `ValueError` ("No closing
quotation"), EOF after an escape likewise ("No escaped character"). -/
def shlexRun : List Char → ShState → PyStr → Bool → Except PyErr (List PyStr)
  | [], st, tok, quoted =>
    match st with
    | .quoteS _ => .error .valueError
    | .escapeS _ => .error .valueError
    | _ => if tok.isEmpty && !quoted then .ok [] else .ok [tok]
  | c :: rest, .space, tok, quoted =>
    if isShWhitespace c then
      if !tok.isEmpty || quoted then (shlexRun rest .space [] false).map (tok :: ·)
      else shlexRun rest .space tok quoted
    else if c = '#' then shlexRun rest .comment tok quoted
    else if c = '\\' then shlexRun rest (.escapeS false) tok quoted
    else if isShQuote c then shlexRun rest (.quoteS c) tok quoted
    else shlexRun rest .word (tok ++ [c]) quoted
  | c :: rest, .comment, tok, quoted =>
    if c = '\n' then shlexRun rest .space tok quoted
    else shlexRun rest .comment tok quoted
  | c :: rest, .word, tok, quoted =>
    if isShWhitespace c then
      if !tok.isEmpty || quoted then (shlexRun rest .space [] false).map (tok :: ·)
      else shlexRun rest .space tok quoted
    else if c = '#' then
      if !tok.isEmpty || quoted then (shlexRun rest .comment [] false).map (tok :: ·)
      else shlexRun rest .comment tok quoted
    else if isShQuote c then shlexRun rest (.quoteS c) tok quoted
    else if c = '\\' then shlexRun rest (.escapeS false) tok quoted
    else shlexRun rest .word (tok ++ [c]) quoted
  | c :: rest, .quoteS q, tok, _ =>
    if c = q then shlexRun rest .word tok true
    else if c = '\\' && q = '"' then shlexRun rest (.escapeS true) tok true
    else shlexRun rest (.quoteS q) (tok ++ [c]) true
  | c :: rest, .escapeS fromDq, tok, quoted =>
    if fromDq then
      if c = '\\' || c = '"' then shlexRun rest (.quoteS '"') (tok ++ [c]) quoted
      else shlexRun rest (.quoteS '"') (tok ++ ['\\', c]) quoted
    else shlexRun rest .word (tok ++ [c]) quoted

/-- Model of `shlex.split(line, '#')`. -/
def shlexSplit (s : PyStr) : Except PyErr (List PyStr) :=
  shlexRun s .space [] false

/-- The host-group branch of `_parse_export`.  Note that the source condition
`if '(' and ')' in host` evaluates, by Python operator precedence, to
`')' in host` alone ( `'('` is a truthy constant).  When the token does not
begin with `'('`, `host[:-1].split('(')` must unpack into exactly two parts,
otherwise `ValueError`; a leading `'('` means client `'*'` with the interior
as options; a token without `')'` is a bare client with empty options. -/
def hostSplit (host : PyStr) : Except PyErr (PyStr × PyStr) :=
  if ')' ∈ host then
    if host.head? ≠ some '(' then
      match splitOnChar '(' host.dropLast with
      | [h, o] => .ok (h, o)
      | _ => .error .valueError
    else .ok (['*'], (host.drop 1).dropLast)
  else .ok (host, [])

/-- The `for host in parts[1:]` loop of `_parse_export`: one entry per host
group, aborting at the first malformed group. -/
def parseHosts (path : PyStr) : List PyStr → Except PyErr (List Entry)
  | [] => .ok []
  | host :: rest =>
    match hostSplit host with
    | .error e => .error e
    | .ok ho =>
      match parseHosts path rest with
      | .error e => .error e
      | .ok tail => .ok ((path, ho.1, ho.2) :: tail)

/-- Model of `_parse_export`: the empty line yields no entries; otherwise the
line is shlex-tokenized, the first token is the path and every further token
is a host group producing one `(path, host, optionstring)` entry. -/
def _parse_export (line : PyStr) : Except PyErr (List Entry) :=
  if line.length < 1 then .ok []
  else
    match shlexSplit line with
    | .error e => .error e
    | .ok [] => .ok []
    | .ok (path :: hosts) => parseHosts path hosts

/-- The matching predicate used by `match_export` and `filter_export`:
`exp[0] == path and exp[1].lower() == host.lower()`. -/
def pyLower (s : PyStr) : PyStr := s.map Char.toLower

/-- Decides `exp[0] == path and exp[1].lower() == host.lower()`. -/
def pyMatch (e : Entry) (path host : PyStr) : Bool :=
  e.1 == path && pyLower e.2.1 == pyLower host

/-- Model of `match_export`: `False` on an empty list, otherwise true iff
some entry matches on `(path, case-insensitive host)`. -/
def match_export (exportlist : List Entry) (path host : PyStr) : Bool :=
  if exportlist.length < 1 then false
  else exportlist.any (fun e => pyMatch e path host)

/-- Model of `filter_export`: `LookupError` on an empty list; otherwise keep
the non-matching entries and raise `LookupError` when nothing matched. -/
def filter_export (exportlist : List Entry) (path host : PyStr) :
    Except PyErr (List Entry) :=
  if exportlist.length < 1 then .error .lookupError
  else if exportlist.any (fun e => pyMatch e path host) then
    .ok (exportlist.filter (fun e => !pyMatch e path host))
  else .error .lookupError

/-- The loop of `_write_exports` with its `lastpath` accumulator: the path is
written (shell-quoted when it contains a space) whenever it differs from the
previous entry's path, then ` host(opt)` or ` host` for empty options. -/
def writeEntries : List Entry → Option PyStr → PyStr
  | [], _ => []
  | (path, host, opt) :: rest, lastpath =>
    (if some path = lastpath then []
     else if ' ' ∈ path then '"' :: path ++ ['"'] else path)
      ++ (if opt.length > 0 then ' ' :: host ++ '(' :: opt ++ [')']
          else ' ' :: host)
      ++ writeEntries rest (some path)

/-- Model of `_write_exports`: the serialized entries followed by one final
newline. -/
def _write_exports (exports : List Entry) : PyStr :=
  writeEntries exports none ++ ['\n']

/-- Model of `_open_exports` on the abstract file (`none` = the file does not
exist): a missing file raises `IOError` in read-only mode and is created
empty (mode `"w"`) in write mode; in the pure model opening an existing file
and taking the lock always succeed. -/
def _open_exports (canwrite : Bool) (file : Option (List PyStr)) :
    Except PyErr (List PyStr) :=
  match file with
  | some lines => .ok lines
  | none => if canwrite then .ok [] else .error .ioError

/-- The explanatory comment written when no line was emitted. -/
def ansibleComment : PyStr := "# NFS exports managed by Ansible\n".toList

/-- The per-line loop of `replace_export`: an empty line or a line whose
first character is `'#'` is copied verbatim (and counted); otherwise, under
`clear_all` the line is dropped; otherwise the line is parsed, a matching
line is filtered and rewritten when entries survive (dropped when none do),
and a non-matching line is copied verbatim.  Returns the lines written to the
temp file together with the `lines` counter. -/
def processLine (path clients : PyStr) (clear_all : Bool) (line : PyStr) :
    Except PyErr (List PyStr × Nat) :=
  match line with
  | [] => .ok ([line], 1)
  | c :: _ =>
    if c = '#' then .ok ([line], 1)
    else if clear_all then .ok (([] : List PyStr), 0)
    else
      match _parse_export line with
      | .error e => .error e
      | .ok exports =>
        if match_export exports path clients then
          match filter_export exports path clients with
          | .error e => .error e
          | .ok exports2 =>
            if exports2.isEmpty then .ok (([] : List PyStr), 0)
            else .ok ([_write_exports exports2], 1)
        else .ok ([line], 1)

def processLines (path clients : PyStr) (clear_all : Bool) :
    List PyStr → Except PyErr (List PyStr × Nat)
  | [] => .ok ([], 0)
  | line :: rest =>
    match processLine path clients clear_all line with
    | .error e => .error e
    | .ok (w, n) =>
      match processLines path clients clear_all rest with
      | .error e => .error e
      | .ok (ws, m) => .ok (w ++ ws, n + m)

/-- Result of a `replace_export` run: the final registry content (`none` if
the file still does not exist), whether a stray temp file is left behind, and
the propagated exception if any. -/
structure RewriteResult where
  registry : Option (List PyStr)
  tmpLeft : Bool
  error : Option PyErr
deriving DecidableEq, Repr

/-- Model of `replace_export`.  The registry is opened read-only, so a
missing file raises `IOError`, which the handler catches: it unlinks the temp
file and re-raises.  Errors inside the body are re-raised after unlinking
only when they are `IOError`/`OSError`; a `ValueError` or `LookupError`
escapes the `except (IOError, OSError)` clause, leaving the temp file behind.
On success the written lines, the explanatory comment when the counter is
zero, and (for an add) the one new entry line are renamed over the registry.
-/
def replace_export (exportsFile : Option (List PyStr)) (path clients : PyStr)
    (options : Option PyStr) (clear_all : Bool) : RewriteResult :=
  match _open_exports false exportsFile with
  | .error e => { registry := exportsFile, tmpLeft := false, error := some e }
  | .ok lines =>
    match processLines path clients clear_all lines with
    | .error e => { registry := exportsFile, tmpLeft := true, error := some e }
    | .ok (ws, n) =>
      let ws1 := if n = 0 then ws ++ [ansibleComment] else ws
      let ws2 :=
        match options with
        | some o => ws1 ++ [_write_exports [(path, clients, o)]]
        | none => ws1
      { registry := some ws2, tmpLeft := false, error := none }

/- ---------------------------------------------------------------------
   Specification-side helpers (used only to state the claims).
   --------------------------------------------------------------------- -/

/-- The entries a registry (as a list of lines) denotes: every line parsed,
results concatenated. -/
def fileEntries : List PyStr → Except PyErr (List Entry)
  | [] => .ok []
  | l :: ls =>
    match _parse_export l with
    | .error e => .error e
    | .ok es =>
      match fileEntries ls with
      | .error e => .error e
      | .ok rest => .ok (es ++ rest)

/-- Splitting a token at its first `'='`, as the specification describes. -/
def specKV (t : PyStr) : PyStr × PyStr :=
  if '=' ∈ t then (t.takeWhile (fun c => c ≠ '='), (t.dropWhile (fun c => c ≠ '=')).drop 1)
  else (t, t)

/-- Characters that shlex passes through unchanged: not whitespace, not the
comment character, not a quote, not the escape character. -/
def plainChar (c : Char) : Bool :=
  !isShWhitespace c && c ≠ '#' && c ≠ '"' && c ≠ '\'' && c ≠ '\\'

/-- A non-empty string of plain characters: shlex reads it back as one
token. -/
def goodStr (s : PyStr) : Bool :=
  !s.isEmpty && s.all plainChar

/-- Entries whose serialized form round-trips through the parser: plain
non-empty path, plain non-empty client without parentheses, plain options
without `'('`. -/
def goodEntry (e : Entry) : Bool :=
  goodStr e.1 && goodStr e.2.1 && e.2.1.all (fun c => c ≠ '(' && c ≠ ')')
    && e.2.2.all (fun c => plainChar c && c ≠ '(')

/-- A well-formed registry line as produced by file iteration: any newline
character can only be its last character. -/
def lineWF (l : PyStr) : Bool :=
  l.dropLast.all (fun c => c ≠ '\n')

/-- The host-group token `_write_exports` emits for one entry: `host(opt)`,
or bare `host` when the option string is empty. -/
def groupTok (e : Entry) : PyStr :=
  if e.2.2.length > 0 then e.2.1 ++ '(' :: e.2.2 ++ [')'] else e.2.1

/- ---------------------------------------------------------------------
   Lemmas about splitting, joining, sorting and the dict model.
   --------------------------------------------------------------------- -/

theorem splitOnChar_ne_nil (c : Char) (s : PyStr) : splitOnChar c s ≠ [] := by
  cases s with
  | nil => simp [splitOnChar]
  | cons x xs =>
    by_cases hx : x = c
    · simp [splitOnChar, hx]
    · simp only [splitOnChar, if_neg hx]
      cases splitOnChar c xs <;> simp

theorem splitOnChar_not_mem {c : Char} {t : PyStr} (h : c ∉ t) :
    splitOnChar c t = [t] := by
  induction t with
  | nil => rfl
  | cons x xs ih =>
    have hx : ¬x = c := fun e => h (e ▸ List.mem_cons_self x xs)
    have hxs : c ∉ xs := fun m => h (List.mem_cons_of_mem _ m)
    simp [splitOnChar, hx, ih hxs]

theorem splitOnChar_append {c : Char} {t r : PyStr} (h : c ∉ t) :
    splitOnChar c (t ++ c :: r) = t :: splitOnChar c r := by
  induction t with
  | nil => simp [splitOnChar]
  | cons x xs ih =>
    have hx : ¬x = c := fun e => h (e ▸ List.mem_cons_self x xs)
    have hxs : c ∉ xs := fun m => h (List.mem_cons_of_mem _ m)
    simp [splitOnChar, hx, ih hxs]

theorem splitOnChar_pyJoin {c : Char} : ∀ {ts : List PyStr}, ts ≠ [] →
    (∀ t ∈ ts, c ∉ t) → splitOnChar c (pyJoin c ts) = ts
  | [], h, _ => absurd rfl h
  | [t], _, h => by
    simpa [pyJoin] using splitOnChar_not_mem (h t (by simp))
  | t :: t2 :: ts, _, h => by
    have he : pyJoin c (t :: t2 :: ts) = t ++ c :: pyJoin c (t2 :: ts) := rfl
    rw [he, splitOnChar_append (h t (by simp)),
      splitOnChar_pyJoin (by simp) (fun u hu => h u (by simp [hu]))]

theorem splitOnChar_length (c : Char) (s : PyStr) :
    (splitOnChar c s).length = s.count c + 1 := by
  induction s with
  | nil => simp [splitOnChar]
  | cons x xs ih =>
    by_cases hx : x = c
    · subst hx
      simp [splitOnChar, List.count_cons, ih]
    · have hxc : (c == x) = false := beq_eq_false_iff_ne.mpr (fun e => hx e.symm)
      simp only [splitOnChar, if_neg hx]
      rcases hsp : splitOnChar c xs with _ | ⟨t, ts⟩
      · exact absurd hsp (splitOnChar_ne_nil c xs)
      · rw [hsp] at ih
        simp only [List.count_cons, hxc, if_false, List.length_cons]
        simpa [hx] using ih

theorem splitOnChar_count_one {c : Char} {s : PyStr} (h : s.count c = 1) :
    splitOnChar c s =
      [s.takeWhile (fun x => x ≠ c), (s.dropWhile (fun x => x ≠ c)).drop 1] := by
  induction s with
  | nil => simp at h
  | cons x xs ih =>
    by_cases hx : x = c
    · subst hx
      have h0 : xs.count x = 0 := by
        simp [List.count_cons] at h
        omega
      have hnm : x ∉ xs := List.count_eq_zero.mp h0
      simp [splitOnChar, List.takeWhile_cons, List.dropWhile_cons,
        splitOnChar_not_mem hnm]
    · have hxc : (c == x) = false := beq_eq_false_iff_ne.mpr (fun e => hx e.symm)
      have h1 : xs.count c = 1 := by
        simp [List.count_cons, hx] at h
        exact h
      simp only [splitOnChar, if_neg hx, ih h1]
      simp [List.takeWhile_cons, List.dropWhile_cons, hx]

theorem sortInsert_perm (x : PyStr) (l : List PyStr) :
    (sortInsert x l).Perm (x :: l) := by
  induction l with
  | nil => exact List.Perm.refl _
  | cons y ys ih =>
    by_cases h : pyLe x y
    · simp [sortInsert, h]
    · simp only [sortInsert, if_neg h]
      exact (ih.cons y).trans (List.Perm.swap x y ys)

theorem pySort_perm (l : List PyStr) : (pySort l).Perm l := by
  induction l with
  | nil => exact List.Perm.refl _
  | cons x xs ih => exact (sortInsert_perm x (pySort xs)).trans (ih.cons x)

theorem dictInsert_fresh {d : Dict} {k v : PyStr} (h : ∀ kv ∈ d, kv.1 ≠ k) :
    dictInsert d k v = d ++ [(k, v)] := by
  have hany : d.any (fun kv => kv.1 == k) = false := by
    simp only [List.any_eq_false]
    intro kv hkv
    simpa using h kv hkv
  simp [dictInsert, hany]

theorem foldl_dictInsert : ∀ (pairs : List (PyStr × PyStr)) (acc : Dict),
    ((acc ++ pairs).map Prod.fst).Nodup →
    pairs.foldl (fun d kv => dictInsert d kv.1 kv.2) acc = acc ++ pairs
  | [], acc, _ => by simp
  | kv :: ps, acc, h => by
    have hfresh : ∀ x ∈ acc, x.1 ≠ kv.1 := by
      intro x hx he
      have h1 : x.1 ∈ (acc.map Prod.fst) := List.mem_map_of_mem _ hx
      have h2 : kv.1 ∈ ((kv :: ps).map Prod.fst) := by simp
      rw [List.map_append] at h
      exact (List.disjoint_of_nodup_append h) h1 (he ▸ h2)
    have hstep : dictInsert acc kv.1 kv.2 = acc ++ [kv] := dictInsert_fresh hfresh
    have hrec := foldl_dictInsert ps (acc ++ [kv]) (by simpa using h)
    simp only [List.foldl_cons, hstep, hrec, List.append_assoc, List.singleton_append]

theorem dictLookup_eq_of_mem : ∀ {d : Dict} {k v : PyStr},
    (d.map Prod.fst).Nodup → (k, v) ∈ d → dictLookup d k = v := by
  intro d
  induction d with
  | nil => intro k v _ h; cases h
  | cons kv rest ih =>
    intro k v hnd h
    rw [List.map_cons] at hnd
    have hnotin : kv.1 ∉ rest.map Prod.fst := (List.nodup_cons.mp hnd).1
    have hrest : (rest.map Prod.fst).Nodup := (List.nodup_cons.mp hnd).2
    rcases List.mem_cons.mp h with he | hm
    · have hb : (kv.1 == k) = true := by rw [← he]; exact beq_self_eq_true k
      simp [dictLookup, List.find?, hb, ← he]
    · have hk : k ∈ rest.map Prod.fst := by
        have hmap : (k, v).1 ∈ rest.map Prod.fst := List.mem_map_of_mem _ hm
        exact hmap
      have hne : (kv.1 == k) = false :=
        beq_eq_false_iff_ne.mpr (fun e => hnotin (e ▸ hk))
      simpa [dictLookup, List.find?, hne] using ih hrest hm

theorem dictLookup_mem : ∀ {d : Dict} {k : PyStr},
    k ∈ d.map Prod.fst → (k, dictLookup d k) ∈ d := by
  intro d
  induction d with
  | nil => intro k h; simp at h
  | cons kv rest ih =>
    intro k h
    by_cases he : kv.1 = k
    · have hb : (kv.1 == k) = true := beq_iff_eq.mpr he
      have hlk : dictLookup (kv :: rest) k = kv.2 := by
        simp [dictLookup, List.find?, hb]
      rw [hlk]
      have hkv : (k, kv.2) = kv := by
        cases kv with
        | mk a b => cases he; rfl
      rw [hkv]
      exact List.mem_cons_self _ _
    · have hb : (kv.1 == k) = false := beq_eq_false_iff_ne.mpr he
      have hk : k ∈ rest.map Prod.fst := by
        rw [List.map_cons] at h
        rcases List.mem_cons.mp h with h1 | h2
        · exact absurd h1.symm he
        · exact h2
      have hlk : dictLookup (kv :: rest) k = dictLookup rest k := by
        simp [dictLookup, List.find?, hb]
      rw [hlk]
      exact List.mem_cons_of_mem _ (ih hk)

/- ---------------------------------------------------------------------
   Characterization of `_parse_options`.
   --------------------------------------------------------------------- -/

theorem parseOptLoop_error_iff : ∀ (ts : List PyStr) (acc : Dict),
    (parseOptLoop ts acc = .error .valueError ↔ ∃ t ∈ ts, 2 ≤ t.count '=') := by
  intro ts
  induction ts with
  | nil => intro acc; simp [parseOptLoop]
  | cons t rest ih =>
    intro acc
    by_cases hm : '=' ∈ t
    · have hc1 : 0 < t.count '=' := List.count_pos_iff.mpr hm
      have hlen : (splitOnChar '=' t).length = t.count '=' + 1 := splitOnChar_length '=' t
      by_cases h2 : 2 ≤ t.count '='
      · rcases hsp : splitOnChar '=' t with _ | ⟨a, _ | ⟨b, _ | ⟨c', l⟩⟩⟩
        · exact absurd hsp (splitOnChar_ne_nil '=' t)
        · rw [hsp] at hlen; simp at hlen; omega
        · rw [hsp] at hlen; simp at hlen; omega
        · have hrun : parseOptLoop (t :: rest) acc = .error .valueError := by
            simp [parseOptLoop, hm, hsp]
          rw [hrun]
          simp only [true_iff]
          exact ⟨t, List.mem_cons_self t rest, h2⟩
      · have hc : t.count '=' = 1 := by omega
        have hsp := splitOnChar_count_one hc
        have hrun : parseOptLoop (t :: rest) acc =
            parseOptLoop rest (dictInsert acc (t.takeWhile (fun x => x ≠ '='))
              ((t.dropWhile (fun x => x ≠ '=')).drop 1)) := by
          simp [parseOptLoop, hm, hsp]
        rw [hrun, ih]
        constructor
        · rintro ⟨u, hu, h2u⟩
          exact ⟨u, List.mem_cons_of_mem _ hu, h2u⟩
        · rintro ⟨u, hu, h2u⟩
          rcases List.mem_cons.mp hu with he | hu2
          · subst he; omega
          · exact ⟨u, hu2, h2u⟩
    · have hc0 : t.count '=' = 0 := List.count_eq_zero.mpr hm
      have hrun : parseOptLoop (t :: rest) acc =
          parseOptLoop rest (dictInsert acc t t) := by
        simp [parseOptLoop, hm]
      rw [hrun, ih]
      constructor
      · rintro ⟨u, hu, h2u⟩
        exact ⟨u, List.mem_cons_of_mem _ hu, h2u⟩
      · rintro ⟨u, hu, h2u⟩
        rcases List.mem_cons.mp hu with he | hu2
        · subst he; omega
        · exact ⟨u, hu2, h2u⟩

theorem parseOptLoop_ok : ∀ (ts : List PyStr) (acc : Dict),
    (∀ t ∈ ts, t.count '=' ≤ 1) →
    parseOptLoop ts acc =
      .ok (ts.foldl (fun d t => dictInsert d (specKV t).1 (specKV t).2) acc) := by
  intro ts
  induction ts with
  | nil => intro acc _; simp [parseOptLoop]
  | cons t rest ih =>
    intro acc h
    by_cases hm : '=' ∈ t
    · have hc1 : 0 < t.count '=' := List.count_pos_iff.mpr hm
      have hc : t.count '=' = 1 := Nat.le_antisymm (h t (List.mem_cons_self t rest)) hc1
      have hsp := splitOnChar_count_one hc
      have hkv : specKV t =
          (t.takeWhile (fun c => c ≠ '='), (t.dropWhile (fun c => c ≠ '=')).drop 1) := by
        simp [specKV, hm]
      simp only [parseOptLoop, if_pos hm, hsp]
      rw [ih _ (fun u hu => h u (List.mem_cons_of_mem _ hu))]
      simp [hkv]
    · have hkv : specKV t = (t, t) := by simp [specKV, hm]
      simp only [parseOptLoop, if_neg hm]
      rw [ih _ (fun u hu => h u (List.mem_cons_of_mem _ hu))]
      simp [hkv]

/-- Parsing the serialized tokens of `_print_options` inserts, for each key in
order, the pair `(key, dictLookup d key)`. -/
theorem parseOptLoop_print_tokens (d : Dict) : ∀ (ks : List PyStr) (acc : Dict),
    (∀ k ∈ ks, '=' ∉ k ∧ '=' ∉ dictLookup d k) →
    parseOptLoop (ks.map (fun key => if key == dictLookup d key then key
        else key ++ '=' :: dictLookup d key)) acc =
      .ok (ks.foldl (fun a k => dictInsert a k (dictLookup d k)) acc) := by
  intro ks
  induction ks with
  | nil => intro acc _; simp [parseOptLoop]
  | cons k rest ih =>
    intro acc h
    have hk := h k (List.mem_cons_self k rest)
    by_cases hflag : (k == dictLookup d k) = true
    · have he : dictLookup d k = k := (beq_iff_eq.mp hflag).symm
      have hstep : parseOptLoop ((k :: rest).map (fun key =>
          if key == dictLookup d key then key else key ++ '=' :: dictLookup d key)) acc =
          parseOptLoop (rest.map (fun key => if key == dictLookup d key then key
            else key ++ '=' :: dictLookup d key)) (dictInsert acc k k) := by
        simp [parseOptLoop, hflag, hk.1]
      rw [hstep, ih _ (fun u hu => h u (List.mem_cons_of_mem _ hu))]
      rw [List.foldl_cons, he]
    · have hmem : '=' ∈ k ++ '=' :: dictLookup d k := by
        simp
      have hsp : splitOnChar '=' (k ++ '=' :: dictLookup d k) = [k, dictLookup d k] := by
        rw [splitOnChar_append hk.1, splitOnChar_not_mem hk.2]
      have hstep : parseOptLoop ((k :: rest).map (fun key =>
          if key == dictLookup d key then key else key ++ '=' :: dictLookup d key)) acc =
          parseOptLoop (rest.map (fun key => if key == dictLookup d key then key
            else key ++ '=' :: dictLookup d key)) (dictInsert acc k (dictLookup d k)) := by
        simp [parseOptLoop, hflag, hmem, hsp]
      rw [hstep, ih _ (fun u hu => h u (List.mem_cons_of_mem _ hu))]
      rw [List.foldl_cons]

/-- Round trip of `_print_options` then `_parse_options` on a dict whose keys
and values avoid the separator characters: the result holds exactly the same
bindings (as a set). -/
theorem parse_print_roundtrip {d : Dict}
    (hnd : (d.map Prod.fst).Nodup)
    (hgood : ∀ kv ∈ d, ',' ∉ kv.1 ∧ '=' ∉ kv.1 ∧ ',' ∉ kv.2 ∧ '=' ∉ kv.2) :
    ∃ r, _parse_options (_print_options (some d)) = .ok r ∧
      ∀ kv : PyStr × PyStr, kv ∈ r ↔ kv ∈ d := by
  by_cases hd : d = []
  · subst hd
    exact ⟨[], by decide, by simp⟩
  · have hperm : (pySort (d.map Prod.fst)).Perm (d.map Prod.fst) :=
      pySort_perm _
    have hknd : (pySort (d.map Prod.fst)).Nodup := hperm.symm.nodup hnd
    have hkmem : ∀ k ∈ pySort (d.map Prod.fst), (k, dictLookup d k) ∈ d :=
      fun k hk => dictLookup_mem (hperm.subset hk)
    have hkeq : ∀ k ∈ pySort (d.map Prod.fst),
        ',' ∉ k ∧ '=' ∉ k ∧ ',' ∉ dictLookup d k ∧ '=' ∉ dictLookup d k := by
      intro k hk
      have h1 := hgood _ (hkmem k hk)
      exact ⟨h1.1, h1.2.1, h1.2.2.1, h1.2.2.2⟩
    have hkne : pySort (d.map Prod.fst) ≠ [] := by
      intro h0
      apply hd
      have hl := hperm.length_eq
      rw [h0] at hl
      simp at hl
      exact List.length_eq_zero.mp hl.symm
    -- the emitted token list
    have htokne : (pySort (d.map Prod.fst)).map (fun key =>
        if key == dictLookup d key then key
        else key ++ '=' :: dictLookup d key) ≠ [] := by
      simpa using hkne
    have htokfree : ∀ tok ∈ (pySort (d.map Prod.fst)).map (fun key =>
        if key == dictLookup d key then key
        else key ++ '=' :: dictLookup d key), ',' ∉ tok := by
      intro tok htok
      rcases List.mem_map.mp htok with ⟨k, hk, he⟩
      have hg := hkeq k hk
      by_cases hflag : (k == dictLookup d k) = true
      · rw [if_pos hflag] at he
        exact he ▸ hg.1
      · rw [if_neg hflag] at he
        subst he
        intro hc
        rcases List.mem_append.mp hc with h1 | h1
        · exact hg.1 h1
        · rcases List.mem_cons.mp h1 with h2 | h2
          · exact absurd h2 (by decide)
          · exact hg.2.2.1 h2
    have hprint : _print_options (some d) =
        some (pyJoin ',' ((pySort (d.map Prod.fst)).map (fun key =>
          if key == dictLookup d key then key
          else key ++ '=' :: dictLookup d key))) := by
      have hne2 : ((pySort (d.map Prod.fst)).map (fun key =>
          if key == dictLookup d key then key
          else key ++ '=' :: dictLookup d key)).isEmpty = false := by
        rcases hx : (pySort (d.map Prod.fst)).map (fun key =>
            if key == dictLookup d key then key
            else key ++ '=' :: dictLookup d key) with _ | ⟨a, l⟩
        · exact absurd hx htokne
        · rfl
      simp only [_print_options]
      rw [if_neg (by simp [hkne])]
    have hsplit : splitOnChar ',' (pyJoin ',' ((pySort (d.map Prod.fst)).map
        (fun key => if key == dictLookup d key then key
          else key ++ '=' :: dictLookup d key))) =
        (pySort (d.map Prod.fst)).map (fun key =>
          if key == dictLookup d key then key
          else key ++ '=' :: dictLookup d key) :=
      splitOnChar_pyJoin htokne htokfree
    have hloop := parseOptLoop_print_tokens d (pySort (d.map Prod.fst)) []
      (fun k hk => ⟨(hkeq k hk).2.1, (hkeq k hk).2.2.2⟩)
    have hfold : (pySort (d.map Prod.fst)).foldl
        (fun a k => dictInsert a k (dictLookup d k)) ([] : Dict) =
        (pySort (d.map Prod.fst)).map (fun k => (k, dictLookup d k)) := by
      have h1 : (pySort (d.map Prod.fst)).foldl
          (fun a k => dictInsert a k (dictLookup d k)) ([] : Dict) =
          ((pySort (d.map Prod.fst)).map (fun k => (k, dictLookup d k))).foldl
            (fun a kv => dictInsert a kv.1 kv.2) ([] : Dict) := by
        rw [List.foldl_map]
      rw [h1]
      have h2 : ((([] : Dict) ++ (pySort (d.map Prod.fst)).map
          (fun k => (k, dictLookup d k))).map Prod.fst).Nodup := by
        have hmap : ((pySort (d.map Prod.fst)).map
            (fun k => (k, dictLookup d k))).map Prod.fst =
            pySort (d.map Prod.fst) := by
          rw [List.map_map]
          simp [Function.comp_def]
        simpa [hmap] using hknd
      simpa using foldl_dictInsert _ [] h2
    refine ⟨(pySort (d.map Prod.fst)).map (fun k => (k, dictLookup d k)), ?_, ?_⟩
    · rw [hprint]
      simp only [_parse_options]
      rw [hsplit, hloop, hfold]
    · intro kv
      constructor
      · intro hr
        rcases List.mem_map.mp hr with ⟨k, hk, he⟩
        exact he ▸ hkmem k hk
      · intro hdm
        have hk : kv.1 ∈ pySort (d.map Prod.fst) :=
          (hperm.mem_iff).mpr (List.mem_map_of_mem _ hdm)
        have hl : dictLookup d kv.1 = kv.2 := dictLookup_eq_of_mem hnd (by
          rcases kv with ⟨a, b⟩; exact hdm)
        have : (kv.1, dictLookup d kv.1) ∈ (pySort (d.map Prod.fst)).map
            (fun k => (k, dictLookup d k)) := List.mem_map_of_mem _ hk
        rw [hl] at this
        simpa using this

/- ---------------------------------------------------------------------
   Lemmas about the shlex state machine.
   --------------------------------------------------------------------- -/

theorem plainChar_props {c : Char} (h : plainChar c = true) :
    isShWhitespace c = false ∧ ¬c = '#' ∧ isShQuote c = false ∧ ¬c = '\\' := by
  simp only [plainChar, Bool.and_eq_true, Bool.not_eq_true', decide_eq_true_eq] at h
  refine ⟨h.1.1.1.1, h.1.1.1.2, ?_, h.2⟩
  simp [isShQuote, h.1.1.2, h.1.2]

theorem goodStr_props {t : PyStr} (h : goodStr t = true) :
    t ≠ [] ∧ ∀ c ∈ t, plainChar c = true := by
  simp only [goodStr, Bool.and_eq_true, Bool.not_eq_true', List.all_eq_true] at h
  constructor
  · intro h0
    rw [h0] at h
    simp at h
  · exact h.2

theorem except_map_error {α β : Type} {f : α → β} {x : Except PyErr α} {e : PyErr}
    (h : x.map f = .error e) : x = .error e := by
  cases x with
  | error e2 => simpa [Except.map] using h
  | ok v => simp [Except.map] at h

theorem shlexRun_word_plain : ∀ (t rest : List Char) (tok : PyStr) (q : Bool),
    (∀ c ∈ t, plainChar c = true) →
    shlexRun (t ++ rest) .word tok q = shlexRun rest .word (tok ++ t) q := by
  intro t
  induction t with
  | nil => intro rest tok q _; simp
  | cons c cs ih =>
    intro rest tok q h
    obtain ⟨hws, hhash, hq, hbs⟩ := plainChar_props (h c (List.mem_cons_self c cs))
    have hstep : shlexRun (c :: (cs ++ rest)) .word tok q =
        shlexRun (cs ++ rest) .word (tok ++ [c]) q := by
      simp [shlexRun, hws, hhash, hq, hbs]
    rw [List.cons_append, hstep,
      ih rest (tok ++ [c]) q (fun u hu => h u (List.mem_cons_of_mem _ hu))]
    simp

theorem shlexRun_space_plain (t rest : List Char) (h : ∀ c ∈ t, plainChar c = true)
    (hne : t ≠ []) :
    shlexRun (t ++ rest) .space [] false = shlexRun rest .word t false := by
  rcases t with _ | ⟨c, cs⟩
  · exact absurd rfl hne
  · obtain ⟨hws, hhash, hq, hbs⟩ := plainChar_props (h c (List.mem_cons_self c cs))
    have hstep : shlexRun (c :: (cs ++ rest)) .space [] false =
        shlexRun (cs ++ rest) .word [c] false := by
      simp [shlexRun, hws, hhash, hq, hbs]
    rw [List.cons_append, hstep, shlexRun_word_plain cs rest [c] false
      (fun u hu => h u (List.mem_cons_of_mem _ hu))]
    simp

theorem shlexRun_tokens : ∀ (ts : List PyStr) (cur : PyStr), cur ≠ [] →
    (∀ t ∈ ts, goodStr t = true) →
    shlexRun ((ts.map (fun t => ' ' :: t)).flatten ++ ['\n']) .word cur false =
      .ok (cur :: ts) := by
  intro ts
  induction ts with
  | nil =>
    intro cur hne _
    have hcur : cur.isEmpty = false := by
      rcases cur with _ | ⟨a, l⟩
      · exact absurd rfl hne
      · rfl
    simp [shlexRun, isShWhitespace, hcur, Except.map]
  | cons t ts ih =>
    intro cur hne hg
    obtain ⟨htne, htc⟩ := goodStr_props (hg t (List.mem_cons_self t ts))
    have hcur : cur.isEmpty = false := by
      rcases cur with _ | ⟨a, l⟩
      · exact absurd rfl hne
      · rfl
    have hflat : ((t :: ts).map (fun u => ' ' :: u)).flatten ++ ['\n'] =
        ' ' :: (t ++ ((ts.map (fun u => ' ' :: u)).flatten ++ ['\n'])) := by
      simp
    rw [hflat]
    have hstep : shlexRun (' ' :: (t ++ ((ts.map (fun u => ' ' :: u)).flatten ++ ['\n'])))
        .word cur false =
        (shlexRun (t ++ ((ts.map (fun u => ' ' :: u)).flatten ++ ['\n']))
          .space [] false).map (cur :: ·) := by
      simp [shlexRun, isShWhitespace, hcur]
    rw [hstep, shlexRun_space_plain t _ htc htne,
      ih t htne (fun u hu => hg u (List.mem_cons_of_mem _ hu))]
    rfl

theorem shlexSplit_plain_line (p : PyStr) (ts : List PyStr)
    (hp : goodStr p = true) (hts : ∀ t ∈ ts, goodStr t = true) :
    shlexSplit (p ++ ((ts.map (fun t => ' ' :: t)).flatten ++ ['\n'])) = .ok (p :: ts) := by
  obtain ⟨hpne, hpc⟩ := goodStr_props hp
  rw [shlexSplit, shlexRun_space_plain p _ hpc hpne, shlexRun_tokens ts p hpne hts]

theorem shlexRun_comment_wf : ∀ (r : List Char), (∀ c ∈ r.dropLast, ¬c = '\n') →
    shlexRun r .comment [] false = .ok [] := by
  intro r
  induction r with
  | nil => intro _; simp [shlexRun]
  | cons c cs ih =>
    intro h
    by_cases hc : c = '\n'
    · subst hc
      rcases cs with _ | ⟨d, ds⟩
      · simp [shlexRun]
      · exact absurd rfl (h '\n' (by simp [List.dropLast]))
    · have hstep : shlexRun (c :: cs) .comment [] false =
          shlexRun cs .comment [] false := by
        simp [shlexRun, hc]
      rw [hstep]
      apply ih
      intro u hu
      apply h u
      rcases cs with _ | ⟨d, ds⟩
      · simp at hu
      · simp [List.dropLast] at hu ⊢
        exact Or.inr hu

theorem shlexRun_error : ∀ (s : List Char) (st : ShState) (tok : PyStr) (q : Bool)
    (e : PyErr), shlexRun s st tok q = .error e → e = .valueError := by
  intro s
  induction s with
  | nil =>
    intro st tok q e h
    cases st <;> simp only [shlexRun] at h <;> (try split at h) <;>
      ((cases h) <;> rfl)
  | cons c cs ih =>
    intro st tok q e h
    cases st <;> simp only [shlexRun] at h <;> (repeat' split at h) <;>
      first
        | exact ih _ _ _ _ h
        | exact ih _ _ _ _ (except_map_error h)

theorem hostSplit_error : ∀ {host : PyStr} {e : PyErr},
    hostSplit host = .error e → e = .valueError := by
  intro host e h
  simp only [hostSplit] at h
  repeat' split at h
  all_goals ((cases h) <;> rfl)

theorem parseHosts_error (p : PyStr) : ∀ (hosts : List PyStr) (e : PyErr),
    parseHosts p hosts = .error e → e = .valueError := by
  intro hosts
  induction hosts with
  | nil => intro e h; cases h
  | cons a as ih =>
    intro e h
    simp only [parseHosts] at h
    rcases hfa : hostSplit a with e2 | ho
    · rw [hfa] at h
      cases h
      exact hostSplit_error hfa
    · rw [hfa] at h
      rcases hrest : parseHosts p as with e2 | tail
      · rw [hrest] at h
        cases h
        exact ih _ hrest
      · rw [hrest] at h
        cases h

theorem parse_export_error {line : PyStr} {e : PyErr}
    (h : _parse_export line = .error e) : e = .valueError := by
  simp only [_parse_export] at h
  split at h
  · cases h
  · rcases hsp : shlexSplit line with e2 | l
    · rw [hsp] at h
      rw [Except.error.injEq] at h
      exact h ▸ shlexRun_error line .space [] false e2 hsp
    · rw [hsp] at h
      rcases l with _ | ⟨p, hosts⟩
      · cases h
      · exact parseHosts_error p hosts e h

/- ---------------------------------------------------------------------
   Round trip of `_write_exports` and `_parse_export`.
   --------------------------------------------------------------------- -/

theorem goodEntry_props {e : Entry} (h : goodEntry e = true) :
    goodStr e.1 = true ∧ goodStr e.2.1 = true ∧
      (∀ c ∈ e.2.1, ¬c = '(' ∧ ¬c = ')') ∧
      (∀ c ∈ e.2.2, plainChar c = true ∧ ¬c = '(') := by
  simp only [goodEntry, Bool.and_eq_true, List.all_eq_true, Bool.and_eq_true,
    decide_eq_true_eq] at h
  exact ⟨h.1.1.1, h.1.1.2, h.1.2, h.2⟩

theorem goodStr_no_space {p : PyStr} (h : goodStr p = true) : ' ' ∉ p := by
  intro hm
  have := (goodStr_props h).2 ' ' hm
  simp [plainChar, isShWhitespace] at this

theorem groupTok_goodStr {e : Entry} (h : goodEntry e = true) :
    goodStr (groupTok e) = true := by
  obtain ⟨_, hh, _, ho⟩ := goodEntry_props h
  obtain ⟨hhne, hhc⟩ := goodStr_props hh
  by_cases hlen : e.2.2.length > 0
  · simp only [groupTok, if_pos hlen]
    simp only [goodStr, Bool.and_eq_true, Bool.not_eq_true', List.all_eq_true]
    constructor
    · rcases hcase : e.2.1 with _ | ⟨a, l⟩
      · exact absurd hcase hhne
      · rfl
    · intro c hc
      have hc2 : c ∈ e.2.1 ∨ c = '(' ∨ c ∈ e.2.2 ∨ c = ')' := by
        simpa [List.mem_append, List.mem_cons, or_assoc] using hc
      rcases hc2 with h1 | h1 | h1 | h1
      · exact hhc c h1
      · subst h1; decide
      · exact (ho c h1).1
      · subst h1; decide
  · simp only [groupTok, if_neg hlen]
    exact hh

theorem hostSplit_groupTok {e : Entry} (h : goodEntry e = true) :
    hostSplit (groupTok e) = .ok (e.2.1, e.2.2) := by
  obtain ⟨_, hh, hparen, ho⟩ := goodEntry_props h
  obtain ⟨hhne, _⟩ := goodStr_props hh
  by_cases hlen : e.2.2.length > 0
  · have htok : groupTok e = e.2.1 ++ '(' :: e.2.2 ++ [')'] := by
      simp [groupTok, hlen]
    have hmem : ')' ∈ groupTok e := by
      rw [htok]; simp
    have hhead : (groupTok e).head? ≠ some '(' := by
      rw [htok]
      rcases hcase : e.2.1 with _ | ⟨a, l⟩
      · exact absurd hcase hhne
      · have ha : ¬a = '(' := (hparen a (by rw [hcase]; exact List.mem_cons_self a l)).1
        simp [ha]
    have hdrop : (groupTok e).dropLast = e.2.1 ++ '(' :: e.2.2 := by
      rw [htok]
      have : e.2.1 ++ '(' :: e.2.2 ++ [')'] = (e.2.1 ++ '(' :: e.2.2) ++ [')'] := by
        simp
      rw [this, List.dropLast_concat]
    have hsp : splitOnChar '(' ((groupTok e).dropLast) = [e.2.1, e.2.2] := by
      rw [hdrop, splitOnChar_append (fun hm => (hparen '(' hm).1 rfl),
        splitOnChar_not_mem (fun hm => (ho '(' hm).2 rfl)]
    simp [hostSplit, hmem, hhead, hsp]
  · have htok : groupTok e = e.2.1 := by simp [groupTok, hlen]
    have hnm : ')' ∉ e.2.1 := fun hm => (hparen ')' hm).2 rfl
    have ho2 : e.2.2 = [] := by
      rcases hcase : e.2.2 with _ | ⟨a, l⟩
      · rfl
      · rw [hcase] at hlen; simp at hlen
    rw [ho2]
    simp [hostSplit, htok, hnm]

theorem writeEntries_same_path : ∀ (es : List Entry) (p : PyStr),
    (∀ e ∈ es, e.1 = p) →
    writeEntries es (some p) = (es.map (fun e => ' ' :: groupTok e)).flatten := by
  intro es
  induction es with
  | nil => intro p _; simp [writeEntries]
  | cons e rest ih =>
    intro p h
    rcases e with ⟨path, host, opt⟩
    have hp : path = p := h _ (List.mem_cons_self _ _)
    subst hp
    simp only [writeEntries, if_pos rfl]
    rw [ih path (fun u hu => h u (List.mem_cons_of_mem _ hu))]
    by_cases hlen : opt.length > 0
    · simp [groupTok, hlen]
    · simp [groupTok, hlen]

theorem write_exports_shape {es : List Entry} {p : PyStr} (hne : es ≠ [])
    (hsame : ∀ e ∈ es, e.1 = p) (hnosp : ' ' ∉ p) :
    _write_exports es = p ++ (((es.map groupTok).map (fun t => ' ' :: t)).flatten
      ++ ['\n']) := by
  rcases es with _ | ⟨e, rest⟩
  · exact absurd rfl hne
  · rcases e with ⟨path, host, opt⟩
    have hp : path = p := hsame _ (List.mem_cons_self _ _)
    subst hp
    have hnone : (some path = (none : Option PyStr)) = False := by simp
    simp only [_write_exports, writeEntries, hnone, if_false, if_neg hnosp]
    rw [writeEntries_same_path rest path (fun u hu => hsame u (List.mem_cons_of_mem _ hu))]
    rw [List.map_map]
    by_cases hlen : opt.length > 0
    · simp [groupTok, hlen, Function.comp_def]
    · simp [groupTok, hlen, Function.comp_def]

theorem parseHosts_groupToks : ∀ (es : List Entry) (p : PyStr),
    (∀ e ∈ es, e.1 = p) → (∀ e ∈ es, goodEntry e = true) →
    parseHosts p (es.map groupTok) = .ok es := by
  intro es
  induction es with
  | nil => intro p _ _; simp [parseHosts]
  | cons e rest ih =>
    intro p hsame hgood
    have hhs := hostSplit_groupTok (hgood e (List.mem_cons_self _ _))
    simp only [List.map_cons, parseHosts, hhs]
    rw [ih p (fun u hu => hsame u (List.mem_cons_of_mem _ hu))
      (fun u hu => hgood u (List.mem_cons_of_mem _ hu))]
    have he : (p, e.2.1, e.2.2) = e := by
      rcases e with ⟨a, b, c⟩
      have : a = p := hsame _ (List.mem_cons_self _ _)
      rw [this]
    rw [he]

theorem parse_write_roundtrip {es : List Entry} {p : PyStr} (hne : es ≠ [])
    (hsame : ∀ e ∈ es, e.1 = p) (hgood : ∀ e ∈ es, goodEntry e = true) :
    _parse_export (_write_exports es) = .ok es := by
  rcases hes : es with _ | ⟨e0, rest⟩
  · exact absurd hes hne
  · rw [← hes]
    have hp : goodStr p = true := by
      have := goodEntry_props (hgood e0 (by rw [hes]; exact List.mem_cons_self _ _))
      have he0 : e0.1 = p := hsame e0 (by rw [hes]; exact List.mem_cons_self _ _)
      exact he0 ▸ this.1
    have hnosp : ' ' ∉ p := goodStr_no_space hp
    rw [write_exports_shape (hes ▸ hne) hsame hnosp]
    have hlen : ¬(p ++ (((es.map groupTok).map (fun t => ' ' :: t)).flatten
        ++ ['\n'])).length < 1 := by
      simp
    simp only [_parse_export, if_neg hlen]
    rw [shlexSplit_plain_line p (es.map groupTok) hp (by
      intro t ht
      rcases List.mem_map.mp ht with ⟨e, he, heq⟩
      exact heq ▸ groupTok_goodStr (hgood e he))]
    exact parseHosts_groupToks es p hsame hgood

/- ---------------------------------------------------------------------
   Facts about the parser, matcher and per-line processing.
   --------------------------------------------------------------------- -/

theorem parseHosts_same_path (p : PyStr) : ∀ (hosts : List PyStr) (es : List Entry),
    parseHosts p hosts = .ok es → ∀ e ∈ es, e.1 = p := by
  intro hosts
  induction hosts with
  | nil =>
    intro es h e he
    cases h
    simp at he
  | cons a as ih =>
    intro es h e he
    simp only [parseHosts] at h
    rcases hfa : hostSplit a with e2 | ho
    · rw [hfa] at h; cases h
    · rw [hfa] at h
      rcases hrest : parseHosts p as with e2 | tail
      · rw [hrest] at h; cases h
      · rw [hrest] at h
        cases h
        rcases List.mem_cons.mp he with h1 | h1
        · rw [h1]
        · exact ih tail hrest e h1

theorem parse_export_same_path {line : PyStr} {es : List Entry}
    (h : _parse_export line = .ok es) : ∃ p, ∀ e ∈ es, e.1 = p := by
  simp only [_parse_export] at h
  split at h
  · cases h; exact ⟨[], by simp⟩
  · rcases hsp : shlexSplit line with e2 | l
    · rw [hsp] at h; cases h
    · rw [hsp] at h
      rcases l with _ | ⟨p, hosts⟩
      · cases h; exact ⟨[], by simp⟩
      · exact ⟨p, parseHosts_same_path p hosts es h⟩

theorem parse_export_comment {line : PyStr} (hh : line.head? = some '#')
    (hwf : lineWF line = true) : _parse_export line = .ok [] := by
  rcases line with _ | ⟨c, r⟩
  · cases hh
  · have hc : c = '#' := by simpa using hh
    subst hc
    have hlen : ¬('#' :: r).length < 1 := by simp
    have hwf2 : ∀ u ∈ r.dropLast, ¬u = '\n' := by
      intro u hu
      have hmem : u ∈ ('#' :: r).dropLast := by
        rcases r with _ | ⟨d, ds⟩
        · simp at hu
        · simp [List.dropLast] at hu ⊢
          exact Or.inr hu
      have hall : ∀ x ∈ ('#' :: r).dropLast, ¬x = '\n' := by
        simpa [lineWF, List.all_eq_true] using hwf
      exact hall u hmem
    have hstep : shlexRun ('#' :: r) .space [] false = shlexRun r .comment [] false := by
      simp [shlexRun, isShWhitespace]
    have hsp : shlexSplit ('#' :: r) = .ok [] := by
      rw [shlexSplit, hstep, shlexRun_comment_wf r hwf2]
    simp [_parse_export, hlen, hsp]

theorem match_export_iff {l : List Entry} {p h : PyStr} :
    match_export l p h = true ↔ ∃ e ∈ l, pyMatch e p h = true := by
  rcases l with _ | ⟨a, as⟩
  · simp [match_export]
  · simp [match_export, List.any_eq_true]

theorem filter_export_of_match {l : List Entry} {p h : PyStr}
    (hm : match_export l p h = true) :
    filter_export l p h = .ok (l.filter (fun e => !pyMatch e p h)) := by
  rcases l with _ | ⟨a, as⟩
  · simp [match_export] at hm
  · have hany : (a :: as).any (fun e => pyMatch e p h) = true := by
      simpa [match_export] using hm
    simp [filter_export, hany]

theorem filter_export_error {l : List Entry} {p h : PyStr} {e : PyErr}
    (he : filter_export l p h = .error e) : e = .lookupError := by
  simp only [filter_export] at he
  repeat' split at he
  all_goals ((cases he) <;> rfl)

theorem filter_export_no_match {l : List Entry} {p h : PyStr}
    (hm : ∀ e ∈ l, pyMatch e p h = false) :
    filter_export l p h = .error .lookupError := by
  rcases l with _ | ⟨a, as⟩
  · simp [filter_export]
  · have hany : (a :: as).any (fun e => pyMatch e p h) = false := by
      simp only [List.any_eq_false]
      intro e he
      simp [hm e he]
    simp [filter_export, hany]

theorem match_export_false_filter {l : List Entry} {p h : PyStr}
    (hm : match_export l p h = false) :
    l.filter (fun e => !pyMatch e p h) = l := by
  apply List.filter_eq_self.mpr
  intro e he
  have hfalse : pyMatch e p h = false := by
    rcases l with _ | ⟨a, as⟩
    · simp at he
    · have h2 : (a :: as).any (fun x => pyMatch x p h) = false := by
        simpa [match_export] using hm
      have h3 := (List.any_eq_false.mp h2) e he
      simpa using h3
  simp [hfalse]

theorem fileEntries_append : ∀ {a : List PyStr} {b : List PyStr} {x y : List Entry},
    fileEntries a = .ok x → fileEntries b = .ok y →
    fileEntries (a ++ b) = .ok (x ++ y) := by
  intro a
  induction a with
  | nil =>
    intro b x y hx hy
    cases hx
    simpa using hy
  | cons l ls ih =>
    intro b x y hx hy
    simp only [fileEntries] at hx
    rcases hp : _parse_export l with e | es
    · rw [hp] at hx; cases hx
    · rw [hp] at hx
      rcases hrest : fileEntries ls with e | rest
      · rw [hrest] at hx; cases hx
      · rw [hrest] at hx
        cases hx
        have hlb := ih hrest hy
        simp [fileEntries, hp, hlb]

theorem fileEntries_cons {l : PyStr} {ls : List PyStr} {es : List Entry}
    (h : fileEntries (l :: ls) = .ok es) :
    ∃ e1 erest, _parse_export l = .ok e1 ∧ fileEntries ls = .ok erest ∧
      es = e1 ++ erest := by
  simp only [fileEntries] at h
  rcases hp : _parse_export l with e | e1
  · rw [hp] at h; cases h
  · rw [hp] at h
    rcases hrest : fileEntries ls with e | erest
    · rw [hrest] at h; cases h
    · rw [hrest] at h
      cases h
      exact ⟨e1, erest, rfl, rfl, rfl⟩

theorem processLine_comment {p c : PyStr} {ca : Bool} {l : PyStr}
    (h : l = [] ∨ l.head? = some '#') :
    processLine p c ca l = .ok ([l], 1) := by
  rcases l with _ | ⟨a, r⟩
  · rfl
  · rcases h with h | h
    · cases h
    · have ha : a = '#' := by simpa using h
      subst ha
      simp [processLine]

theorem processLine_count {p c : PyStr} {ca : Bool} {l : PyStr} {w : List PyStr}
    {n : Nat} (h : processLine p c ca l = .ok (w, n)) : n = w.length := by
  simp only [processLine] at h
  repeat' split at h
  all_goals ((cases h) <;> rfl)

theorem processLine_error {p c : PyStr} {ca : Bool} {l : PyStr} {e : PyErr}
    (h : processLine p c ca l = .error e) : e = .valueError := by
  rcases l with _ | ⟨a, r⟩
  · cases h
  · simp only [processLine] at h
    by_cases ha : a = '#'
    · simp [ha] at h
    · rw [if_neg ha] at h
      by_cases hca : ca = true
      · simp [hca] at h
      · rw [if_neg hca] at h
        rcases hp : _parse_export (a :: r) with pe | exports
        · rw [hp] at h
          cases h
          exact parse_export_error hp
        · rw [hp] at h
          dsimp only at h
          by_cases hm : match_export exports p c = true
          · rw [if_pos hm, filter_export_of_match hm] at h
            dsimp only at h
            split at h <;> cases h
          · rw [if_neg hm] at h
            cases h

theorem processLines_error {p c : PyStr} {ca : Bool} : ∀ {ls : List PyStr} {e : PyErr},
    processLines p c ca ls = .error e → e = .valueError := by
  intro ls
  induction ls with
  | nil => intro e h; cases h
  | cons l rest ih =>
    intro e h
    simp only [processLines] at h
    rcases hl : processLine p c ca l with pe | ⟨w, n⟩
    · rw [hl] at h
      cases h
      exact processLine_error hl
    · rw [hl] at h
      rcases hr : processLines p c ca rest with pe | ⟨ws, m⟩
      · rw [hr] at h
        cases h
        exact ih hr
      · rw [hr] at h
        cases h

theorem processLines_count {p c : PyStr} {ca : Bool} :
    ∀ {ls ws : List PyStr} {n : Nat},
    processLines p c ca ls = .ok (ws, n) → n = ws.length := by
  intro ls
  induction ls with
  | nil =>
    intro ws n h
    cases h
    rfl
  | cons l rest ih =>
    intro ws n h
    simp only [processLines] at h
    rcases hl : processLine p c ca l with pe | ⟨w, m⟩
    · rw [hl] at h; cases h
    · rw [hl] at h
      rcases hr : processLines p c ca rest with pe | ⟨ws2, m2⟩
      · rw [hr] at h; cases h
      · rw [hr] at h
        cases h
        have h1 := processLine_count hl
        have h2 := ih hr
        simp [h1, h2]

theorem processLine_entries {p c : PyStr} {ca : Bool} {l : PyStr} {e1 : List Entry}
    (hp : _parse_export l = .ok e1) (hwf : lineWF l = true)
    (hgood : ∀ e ∈ e1, goodEntry e = true) :
    ∃ w, processLine p c ca l = .ok (w, w.length) ∧
      fileEntries w = .ok (if ca = true then []
        else e1.filter (fun e => !pyMatch e p c)) := by
  rcases l with _ | ⟨a, r⟩
  · have h0 : _parse_export ([] : PyStr) = .ok [] := rfl
    rw [h0] at hp
    cases hp
    refine ⟨[[]], rfl, ?_⟩
    simp [fileEntries, _parse_export]
  · by_cases ha : a = '#'
    · subst ha
      have hc : _parse_export ('#' :: r) = .ok [] :=
        parse_export_comment (by simp) hwf
      rw [hc] at hp
      cases hp
      refine ⟨['#' :: r], ?_, ?_⟩
      · simp [processLine]
      · simp [fileEntries, hc]
    · by_cases hca : ca = true
      · refine ⟨[], ?_, ?_⟩
        · simp [processLine, ha, hca]
        · simp [fileEntries, hca]
      · by_cases hm : match_export e1 p c = true
        · have hfe := filter_export_of_match hm
          by_cases hemp : (e1.filter (fun e => !pyMatch e p c)).isEmpty = true
          · refine ⟨[], ?_, ?_⟩
            · simp [processLine, ha, hca, hp, hm, hfe, hemp]
            · have hnil : e1.filter (fun e => !pyMatch e p c) = [] := by
                simpa using hemp
              simp [fileEntries, hca, hnil]
          · obtain ⟨p0, hp0⟩ := parse_export_same_path hp
            have hfne : e1.filter (fun e => !pyMatch e p c) ≠ [] := by
              intro h0
              rw [h0] at hemp
              simp at hemp
            have hsame : ∀ e ∈ e1.filter (fun e => !pyMatch e p c), e.1 = p0 :=
              fun e he => hp0 e (List.mem_of_mem_filter he)
            have hgood2 : ∀ e ∈ e1.filter (fun e => !pyMatch e p c),
                goodEntry e = true :=
              fun e he => hgood e (List.mem_of_mem_filter he)
            have hrt := parse_write_roundtrip hfne hsame hgood2
            refine ⟨[_write_exports (e1.filter (fun e => !pyMatch e p c))], ?_, ?_⟩
            · simp [processLine, ha, hca, hp, hm, hfe, hemp]
            · simp [fileEntries, hrt, hca]
        · refine ⟨[a :: r], ?_, ?_⟩
          · simp [processLine, ha, hca, hp, hm]
          · have hfilter : e1.filter (fun e => !pyMatch e p c) = e1 :=
              match_export_false_filter (Bool.eq_false_iff.mpr hm)
            simp [fileEntries, hp, hca, hfilter]

theorem processLines_entries {p c : PyStr} {ca : Bool} :
    ∀ {ls : List PyStr} {ents : List Entry},
    fileEntries ls = .ok ents →
    (∀ e ∈ ents, goodEntry e = true) →
    (∀ l ∈ ls, lineWF l = true) →
    ∃ ws, processLines p c ca ls = .ok (ws, ws.length) ∧
      fileEntries ws = .ok (if ca = true then []
        else ents.filter (fun e => !pyMatch e p c)) := by
  intro ls
  induction ls with
  | nil =>
    intro ents h _ _
    cases h
    exact ⟨[], rfl, by simp [fileEntries]⟩
  | cons l rest ih =>
    intro ents h hgood hwf
    obtain ⟨e1, erest, hp, hrest, hee⟩ := fileEntries_cons h
    subst hee
    obtain ⟨w, hw, hwfe⟩ := @processLine_entries p c ca l e1 hp
      (hwf l (List.mem_cons_self _ _))
      (fun e he => hgood e (List.mem_append.mpr (Or.inl he)))
    obtain ⟨ws, hws, hwsfe⟩ := ih hrest
      (fun e he => hgood e (List.mem_append.mpr (Or.inr he)))
      (fun u hu => hwf u (List.mem_cons_of_mem _ hu))
    refine ⟨w ++ ws, ?_, ?_⟩
    · simp [processLines, hw, hws]
    · have happ := fileEntries_append hwfe hwsfe
      by_cases hca : ca = true
      · simpa [hca] using happ
      · simpa [hca, List.filter_append] using happ

theorem processLines_sublist {p c : PyStr} {ca : Bool} :
    ∀ {ls ws : List PyStr} {n : Nat},
    processLines p c ca ls = .ok (ws, n) →
    (ls.filter (fun l => l.isEmpty || l.head? == some '#' ||
      (!ca && l == ['\n']))).Sublist ws := by
  intro ls
  induction ls with
  | nil =>
    intro ws n h
    cases h
    simp
  | cons l rest ih =>
    intro ws n h
    simp only [processLines] at h
    rcases hl : processLine p c ca l with pe | ⟨w, m⟩
    · rw [hl] at h; cases h
    · rw [hl] at h
      rcases hr : processLines p c ca rest with pe | ⟨ws2, m2⟩
      · rw [hr] at h; cases h
      · rw [hr] at h
        cases h
        by_cases hkeep : (l.isEmpty || l.head? == some '#' ||
            (!ca && l == ['\n'])) = true
        · have hkeep2 : l = [] ∨ l.head? = some '#' ∨ (ca = false ∧ l = ['\n']) := by
            simp only [Bool.or_eq_true, Bool.and_eq_true, Bool.not_eq_true',
              List.isEmpty_iff, beq_iff_eq] at hkeep
            tauto
          have hw2 : processLine p c ca l = .ok ([l], 1) := by
            rcases hkeep2 with h1 | h1 | ⟨h1, h2⟩
            · exact processLine_comment (Or.inl h1)
            · exact processLine_comment (Or.inr h1)
            · subst h1
              subst h2
              rfl
          rw [hw2] at hl
          cases hl
          have hfc : List.filter (fun u : PyStr => u.isEmpty || u.head? == some '#' ||
              (!ca && u == ['\n'])) (l :: rest) =
              l :: List.filter (fun u : PyStr => u.isEmpty || u.head? == some '#' ||
                (!ca && u == ['\n'])) rest := by
            simp [List.filter_cons, hkeep]
          rw [hfc]
          exact (ih hr).cons₂ l
        · have hkf : (l.isEmpty || l.head? == some '#' || (!ca && l == ['\n'])) = false := by
            simpa using hkeep
          have hfc : List.filter (fun u : PyStr => u.isEmpty || u.head? == some '#' ||
              (!ca && u == ['\n'])) (l :: rest) =
              List.filter (fun u : PyStr => u.isEmpty || u.head? == some '#' ||
                (!ca && u == ['\n'])) rest := by
            simp [List.filter_cons, hkf]
          rw [hfc]
          exact (ih hr).trans (List.sublist_append_right w ws2)

theorem replace_export_ok {lines : List PyStr} {p c : PyStr} {o : Option PyStr}
    {ca : Bool} {ws : List PyStr} {n : Nat}
    (h : processLines p c ca lines = .ok (ws, n)) :
    replace_export (some lines) p c o ca =
      { registry := some ((if n = 0 then ws ++ [ansibleComment] else ws) ++
          (match o with
           | some oo => [_write_exports [(p, c, oo)]]
           | none => [])),
        tmpLeft := false, error := none } := by
  simp only [replace_export, _open_exports, h]
  cases o <;> simp

theorem replace_export_err {lines : List PyStr} {p c : PyStr} {o : Option PyStr}
    {ca : Bool} {e : PyErr} (h : processLines p c ca lines = .error e) :
    replace_export (some lines) p c o ca =
      { registry := some lines, tmpLeft := true, error := some e } := by
  simp only [replace_export, _open_exports, h]

/- ---------------------------------------------------------------------
   Remaining shared helpers.
   --------------------------------------------------------------------- -/

theorem pyMatch_iff {e : Entry} {p h : PyStr} :
    pyMatch e p h = true ↔ e.1 = p ∧ pyLower e.2.1 = pyLower h := by
  simp [pyMatch]

theorem write_exports_shape_general {es : List Entry} {p : PyStr} (hne : es ≠ [])
    (hsame : ∀ e ∈ es, e.1 = p) :
    _write_exports es = (if ' ' ∈ p then '"' :: p ++ ['"'] else p) ++
      ((es.map (fun e => ' ' :: groupTok e)).flatten ++ ['\n']) := by
  rcases es with _ | ⟨e, rest⟩
  · exact absurd rfl hne
  · rcases e with ⟨path, host, opt⟩
    have hp : path = p := hsame _ (List.mem_cons_self _ _)
    subst hp
    have hnone : (some path = (none : Option PyStr)) = False := by simp
    simp only [_write_exports, writeEntries, hnone, if_false]
    rw [writeEntries_same_path rest path
      (fun u hu => hsame u (List.mem_cons_of_mem _ hu))]
    by_cases hlen : opt.length > 0
    · simp [groupTok, hlen]
    · simp [groupTok, hlen]

/- ---------------------------------------------------------------------
   The claims.
   --------------------------------------------------------------------- -/

/-- C2, counterexample: for the OptionSet `{a ↦ "b,c"}` (a value containing a
comma), `_parse_options (_print_options S)` yields `{a ↦ b, c ↦ c}`, which is
not set-equal to `S`, refuting the unrestricted round-trip claim. -/
theorem C2_counterexample :
    _parse_options (_print_options (some [("a".toList, "b,c".toList)])) =
      .ok [("a".toList, "b".toList), ("c".toList, "c".toList)] ∧
    ("c".toList, "c".toList) ∉ ([("a".toList, "b,c".toList)] : Dict) :=
  ⟨by decide, by decide⟩

/-- C2, amended: for every OptionSet (a dict with distinct keys) whose keys
and values contain neither `','` nor `'='`, parsing the serialized form
yields a set equal to the original, independent of emission order. -/
theorem C2_roundtrip : ∀ (d : Dict), (d.map Prod.fst).Nodup →
    (∀ kv ∈ d, ',' ∉ kv.1 ∧ '=' ∉ kv.1 ∧ ',' ∉ kv.2 ∧ '=' ∉ kv.2) →
    ∃ r, _parse_options (_print_options (some d)) = .ok r ∧
      ∀ kv : PyStr × PyStr, kv ∈ r ↔ kv ∈ d :=
  fun _ h1 h2 => parse_print_roundtrip h1 h2

/-- C2, witness: the round trip instantiated on the concrete OptionSet
`{rw ↦ rw, sec ↦ krb5}`. -/
theorem C2_witness : ∃ r, _parse_options (_print_options (some
    [("rw".toList, "rw".toList), ("sec".toList, "krb5".toList)])) = .ok r ∧
    ∀ kv : PyStr × PyStr, kv ∈ r ↔
      kv ∈ [("rw".toList, "rw".toList), ("sec".toList, "krb5".toList)] :=
  C2_roundtrip _ (by decide) (by decide)

/-- C3, counterexample: with the registry file absent, an add via
`replace_export` does not complete successfully building a comment-plus-entry
registry; it deletes the temp file and propagates `IOError`, leaving no
registry. -/
theorem C3_counterexample :
    replace_export none ("/p".toList) ("h".toList) (some ("ro".toList)) false =
      { registry := none, tmpLeft := false, error := some .ioError } := by
  decide

/-- C3, amended: `replace_export` opens the registry read-only
(`_open_exports(False, ...)`), so a missing registry file is not treated as
empty input: the rewrite always fails with `IOError` after unlinking the temp
file, for every operation. -/
theorem C3_missing_file : ∀ (p c : PyStr) (o : Option PyStr) (ca : Bool),
    replace_export none p c o ca =
      { registry := none, tmpLeft := false, error := some .ioError } :=
  fun _ _ _ _ => rfl

/-- C5, counterexample: a token with two `'='` characters raises `ValueError`
instead of splitting at the first `'='`, and the empty option string yields
the singleton flag `{"" ↦ ""}` rather than the empty set. -/
theorem C5_counterexample :
    _parse_options (some ("a=b=c".toList)) = .error .valueError ∧
    _parse_options (some ("".toList)) = .ok [([], [])] ∧
    ([([], [])] : Dict) ≠ [] :=
  ⟨by decide, by decide, by decide⟩

/-- C5, amended: `_parse_options` splits on `','`; a token without `'='`
becomes a flag and a token with exactly one `'='` splits there into key and
value (`specKV`), but a token with two or more `'='` raises `ValueError`
(split on every `'='` then a two-way unpack); an absent (`None`) input yields
the empty set while the empty string yields the single empty-named flag. -/
theorem C5_token_semantics : ∀ (s : PyStr),
    (_parse_options (some s) = .error .valueError ↔
      ∃ t ∈ splitOnChar ',' s, 2 ≤ t.count '=') ∧
    ((∀ t ∈ splitOnChar ',' s, t.count '=' ≤ 1) →
      _parse_options (some s) = .ok ((splitOnChar ',' s).foldl
        (fun d t => dictInsert d (specKV t).1 (specKV t).2) [])) ∧
    _parse_options none = .ok [] ∧
    _parse_options (some []) = .ok [([], [])] := by
  intro s
  refine ⟨?_, ?_, rfl, by decide⟩
  · exact parseOptLoop_error_iff (splitOnChar ',' s) []
  · intro hcount
    exact parseOptLoop_ok (splitOnChar ',' s) [] hcount

/-- C5, witness: the good-token clause applied to the concrete option string
`a=b,c`. -/
theorem C5_witness :
    _parse_options (some ("a=b,c".toList)) =
      .ok ((splitOnChar ',' ("a=b,c".toList)).foldl
        (fun d t => dictInsert d (specKV t).1 (specKV t).2) []) :=
  (C5_token_semantics ("a=b,c".toList)).2.1 (by decide)

/-- C6, counterexample: the host token `a(b` has an opening parenthesis with
no closing one, yet `_parse_export` returns it as a bare client entry instead
of failing: the source condition `'(' and ')' in host` only tests `')'`. -/
theorem C6_counterexample :
    _parse_export ("/p a(b\n".toList) =
      .ok [("/p".toList, "a(b".toList, [])] := by
  decide

/-- C6, amended: for a plain path and a plain host token on one line, a token
containing `')'` but no `'('` raises `ValueError` (the two-way unpack of
`host[:-1].split('(')` fails), while a token containing `'('` but no `')'`
does not fail at all: it parses as a bare client with empty options. -/
theorem C6_paren_behaviour : ∀ (p h : PyStr), goodStr p = true → goodStr h = true →
    ((')' ∈ h ∧ '(' ∉ h) →
      _parse_export (p ++ ' ' :: h ++ ['\n']) = .error .valueError) ∧
    (('(' ∈ h ∧ ')' ∉ h) →
      _parse_export (p ++ ' ' :: h ++ ['\n']) = .ok [(p, h, [])]) := by
  intro p h hp hh
  have hline : p ++ ' ' :: h ++ ['\n'] =
      p ++ ((([h] : List PyStr).map (fun t => ' ' :: t)).flatten ++ ['\n']) := by
    simp
  have hsp : shlexSplit (p ++ ' ' :: h ++ ['\n']) = .ok [p, h] := by
    rw [hline]
    exact shlexSplit_plain_line p [h] hp
      (by intro t ht; rw [List.mem_singleton.mp ht]; exact hh)
  obtain ⟨hpne, _⟩ := goodStr_props hp
  obtain ⟨hhne, _⟩ := goodStr_props hh
  have hlen : ¬(p ++ ' ' :: h ++ ['\n']).length < 1 := by simp
  constructor
  · rintro ⟨hmem, hnot⟩
    have hhead : h.head? ≠ some '(' := by
      rcases h with _ | ⟨a, r⟩
      · exact absurd rfl hhne
      · have ha : a ≠ '(' := fun he => hnot (he ▸ List.mem_cons_self a r)
        simp [ha]
    have hnd : '(' ∉ h.dropLast :=
      fun hm => hnot ((List.dropLast_sublist h).subset hm)
    have hsp2 : splitOnChar '(' h.dropLast = [h.dropLast] := splitOnChar_not_mem hnd
    have hhs : hostSplit h = .error .valueError := by
      simp [hostSplit, hmem, hhead, hsp2]
    have hsp3 : shlexSplit (p ++ ' ' :: (h ++ ['\n'])) = .ok [p, h] := by
      simpa using hsp
    simp [_parse_export, hlen, hsp3, parseHosts, hhs]
  · rintro ⟨hmem, hnot⟩
    have hhs : hostSplit h = .ok (h, []) := by
      simp [hostSplit, hnot]
    have hsp3 : shlexSplit (p ++ ' ' :: (h ++ ['\n'])) = .ok [p, h] := by
      simpa using hsp
    simp [_parse_export, hlen, hsp3, parseHosts, hhs]

/-- C6, witness: both clauses at concrete tokens: `a)b` fails with
`ValueError`, `a(b` parses as a bare client. -/
theorem C6_witness :
    _parse_export ("/p".toList ++ ' ' :: "a)b".toList ++ ['\n']) =
      .error .valueError ∧
    _parse_export ("/p".toList ++ ' ' :: "a(b".toList ++ ['\n']) =
      .ok [("/p".toList, "a(b".toList, [])] :=
  ⟨(C6_paren_behaviour ("/p".toList) ("a)b".toList) (by decide) (by decide)).1
      ⟨by decide, by decide⟩,
    (C6_paren_behaviour ("/p".toList) ("a(b".toList) (by decide) (by decide)).2
      ⟨by decide, by decide⟩⟩

/-- C1, counterexample: a registry line whose host token is `a)b` makes
`_parse_export` raise `ValueError`; `replace_export` propagates it but the
`except (IOError, OSError)` handler does not catch it, so the temp file is
NOT deleted — refuting "on any failure at any step the temporary file is
deleted". -/
theorem C1_counterexample :
    replace_export (some ["/p a)b\n".toList]) ("/p".toList) ("h".toList)
      none false =
      { registry := some ["/p a)b\n".toList], tmpLeft := true,
        error := some .valueError } := by
  decide

/-- C1, amended: the original registry is never modified on any failure, and
an `IOError` (missing registry) deletes the temp file before propagating; but
a `ValueError` (parse failure) propagates with the temp file left behind, and
`LookupError` (`NotFound`) is never propagated by `replace_export` — in
particular a remove whose target is absent is not a failure at all: it
completes successfully. -/
theorem C1_failure_paths : ∀ (registry : Option (List PyStr)) (p c : PyStr)
    (o : Option PyStr) (ca : Bool),
    (registry = none → replace_export registry p c o ca =
      { registry := none, tmpLeft := false, error := some .ioError }) ∧
    ((replace_export registry p c o ca).error ≠ none →
      (replace_export registry p c o ca).registry = registry) ∧
    (replace_export registry p c o ca).error ≠ some .lookupError ∧
    ((replace_export registry p c o ca).error = some .valueError →
      (replace_export registry p c o ca).tmpLeft = true) ∧
    (replace_export (some ["/p x(ro)\n".toList]) ("/q".toList) ("y".toList)
      none false).error = none := by
  intro registry p c o ca
  have hcases : (replace_export registry p c o ca).error = none ∨
      ((replace_export registry p c o ca).error = some .valueError ∧
        (replace_export registry p c o ca).tmpLeft = true ∧
        (replace_export registry p c o ca).registry = registry) ∨
      (registry = none ∧ replace_export registry p c o ca =
        { registry := none, tmpLeft := false, error := some .ioError }) := by
    rcases registry with _ | lines
    · exact Or.inr (Or.inr ⟨rfl, rfl⟩)
    · rcases hpl : processLines p c ca lines with e | ⟨ws, n⟩
      · have he := processLines_error hpl
        subst he
        rw [replace_export_err (o := o) hpl]
        exact Or.inr (Or.inl ⟨rfl, rfl, rfl⟩)
      · rw [replace_export_ok (o := o) hpl]
        exact Or.inl rfl
  refine ⟨fun hr => by subst hr; rfl, ?_, ?_, ?_, by decide⟩
  · intro hne
    rcases hcases with h1 | ⟨_, _, h3⟩ | ⟨hn, h2⟩
    · exact absurd h1 hne
    · exact h3
    · rw [h2]
      exact hn.symm
  · rcases hcases with h1 | ⟨h1, _, _⟩ | ⟨_, h2⟩
    · rw [h1]; simp
    · rw [h1]; simp
    · rw [h2]; simp
  · intro hv
    rcases hcases with h1 | ⟨_, h2, _⟩ | ⟨_, h2⟩
    · rw [h1] at hv; cases hv
    · exact h2
    · rw [h2] at hv; simp at hv

/-- C1, witness: the amended theorem applied to a missing registry (temp
deleted, `IOError`) and to a parse-failure registry (registry untouched, temp
left behind). -/
theorem C1_witness :
    replace_export none ("/p".toList) ("h".toList) none false =
      { registry := none, tmpLeft := false, error := some .ioError } ∧
    (replace_export (some ["/p a)b\n".toList]) ("/p".toList) ("h".toList)
      none false).registry = some ["/p a)b\n".toList] ∧
    (replace_export (some ["/p a)b\n".toList]) ("/p".toList) ("h".toList)
      none false).tmpLeft = true :=
  ⟨(C1_failure_paths none ("/p".toList) ("h".toList) none false).1 rfl,
   (C1_failure_paths (some ["/p a)b\n".toList]) ("/p".toList) ("h".toList)
      none false).2.1 (by decide),
   (C1_failure_paths (some ["/p a)b\n".toList]) ("/p".toList) ("h".toList)
      none false).2.2.2.1 (by decide)⟩

/-- C4: `filter_export` keeps exactly the entries whose `(path,
case-insensitive client)` key differs from the target, raises the
`LookupError` (`NotFound`) exactly when no entry matches, and the
case-insensitive add-then-remove scenario (`Host.Example.COM` added, removed
as `host.example.com`) succeeds, leaving only the explanatory comment. -/
theorem C4_filter_semantics : ∀ (l : List Entry) (p h : PyStr),
    ((∃ e ∈ l, e.1 = p ∧ pyLower e.2.1 = pyLower h) →
      filter_export l p h = .ok (l.filter (fun e => !pyMatch e p h))) ∧
    ((∀ e ∈ l, ¬(e.1 = p ∧ pyLower e.2.1 = pyLower h)) →
      filter_export l p h = .error .lookupError) ∧
    (replace_export (some []) ("/p".toList) ("Host.Example.COM".toList)
      (some ("ro".toList)) false).error = none ∧
    replace_export ((replace_export (some []) ("/p".toList)
      ("Host.Example.COM".toList) (some ("ro".toList)) false).registry)
      ("/p".toList) ("host.example.com".toList) none false =
      { registry := some [ansibleComment], tmpLeft := false, error := none } := by
  intro l p h
  refine ⟨?_, ?_, by decide, by decide⟩
  · rintro ⟨e, he, hme⟩
    exact filter_export_of_match (match_export_iff.mpr ⟨e, he, pyMatch_iff.mpr hme⟩)
  · intro hall
    refine filter_export_no_match (fun e he => ?_)
    cases hb : pyMatch e p h with
    | false => rfl
    | true => exact absurd (pyMatch_iff.mp hb) (hall e he)

/-- C4, witness: a matching entry is filtered out; with no matching entry the
`LookupError` is raised. -/
theorem C4_witness :
    filter_export [(("/p".toList, "A".toList, "ro".toList) : Entry)]
      ("/p".toList) ("a".toList) =
      .ok (([(("/p".toList, "A".toList, "ro".toList) : Entry)]).filter
        (fun e => !pyMatch e ("/p".toList) ("a".toList))) ∧
    filter_export [(("/p".toList, "A".toList, "ro".toList) : Entry)]
      ("/q".toList) ("a".toList) = .error .lookupError :=
  ⟨(C4_filter_semantics [("/p".toList, "A".toList, "ro".toList)]
      ("/p".toList) ("a".toList)).1
    ⟨("/p".toList, "A".toList, "ro".toList), by decide, by decide, by decide⟩,
   (C4_filter_semantics [("/p".toList, "A".toList, "ro".toList)]
      ("/q".toList) ("a".toList)).2.1 (by decide)⟩

/-- C7, counterexample: with `clearAll` set, the blank line `"\n"` is dropped
(it fails the `line == '' or line[0] == '#'` test), so the output registry is
only the explanatory comment — refuting "clearAll drops only entry lines,
never comment or blank lines". -/
theorem C7_counterexample :
    replace_export (some ["\n".toList]) ("/p".toList) ("h".toList) none true =
      { registry := some [ansibleComment], tmpLeft := false, error := none } ∧
    "\n".toList ∉ [ansibleComment] :=
  ⟨by decide, by decide⟩

/-- C7, amended: in every successful rewrite, the empty line and every line
beginning with `'#'` are copied verbatim in order (a sublist of the output)
for both `clearAll` values, and without `clearAll` the blank line `"\n"` is
copied as well; with `clearAll` the blank line `"\n"` is dropped (see the
counterexample). -/
theorem C7_verbatim_copies : ∀ (lines : List PyStr) (p c : PyStr)
    (o : Option PyStr) (ca : Bool),
    (replace_export (some lines) p c o ca).error = none →
    ∃ out, (replace_export (some lines) p c o ca).registry = some out ∧
      (lines.filter (fun l => l.isEmpty || l.head? == some '#' ||
        (!ca && l == ['\n']))).Sublist out := by
  intro lines p c o ca herr
  rcases hpl : processLines p c ca lines with e | ⟨ws, n⟩
  · rw [replace_export_err (o := o) hpl] at herr
    simp at herr
  · rw [replace_export_ok (o := o) hpl]
    refine ⟨_, rfl, ?_⟩
    have h1 := processLines_sublist hpl
    have h2 : ws.Sublist (if n = 0 then ws ++ [ansibleComment] else ws) := by
      by_cases hn : n = 0
      · rw [if_pos hn]
        exact List.sublist_append_left ws [ansibleComment]
      · rw [if_neg hn]
    exact (h1.trans h2).trans (List.sublist_append_left _ _)

/-- C7, witness: the amended theorem applied to a registry of one comment
line and one blank line without `clearAll`: both are copied. -/
theorem C7_witness : ∃ out,
    (replace_export (some ["# a\n".toList, "\n".toList]) ("/p".toList)
      ("h".toList) none false).registry = some out ∧
    ((["# a\n".toList, "\n".toList] : List PyStr).filter
      (fun l => l.isEmpty || l.head? == some '#' ||
        (!false && l == ['\n']))).Sublist out :=
  C7_verbatim_copies ["# a\n".toList, "\n".toList] ("/p".toList) ("h".toList)
    none false (by decide)

/-- C8, counterexample: a remove on a registry holding only a comment line
leaves an output with zero entry lines, yet no explanatory comment is
written, because the `lines` counter also counts copied comment lines —
refuting "regardless of how many comment lines were copied". -/
theorem C8_counterexample :
    replace_export (some ["# h\n".toList]) ("/p".toList) ("h".toList)
      none false =
      { registry := some ["# h\n".toList], tmpLeft := false, error := none } ∧
    ansibleComment ∉ ["# h\n".toList] :=
  ⟨by decide, by decide⟩

/-- C8, amended: the explanatory comment is written exactly when zero lines
of any kind (entries, comments and blanks alike) were written — the counter
equals the number of written lines — it precedes any appended add entry, and
the resulting registry is never an empty file. -/
theorem C8_comment_guard : ∀ (lines : List PyStr) (p c : PyStr)
    (o : Option PyStr) (ca : Bool) (ws : List PyStr) (n : Nat),
    processLines p c ca lines = .ok (ws, n) →
    replace_export (some lines) p c o ca =
      { registry := some ((if n = 0 then ws ++ [ansibleComment] else ws) ++
          (match o with
           | some oo => [_write_exports [(p, c, oo)]]
           | none => [])),
        tmpLeft := false, error := none } ∧
    n = ws.length ∧
    (if n = 0 then ws ++ [ansibleComment] else ws) ++
      (match o with
       | some oo => [_write_exports [(p, c, oo)]]
       | none => []) ≠ [] := by
  intro lines p c o ca ws n h
  refine ⟨replace_export_ok h, processLines_count h, ?_⟩
  by_cases hn : n = 0
  · simp [hn]
  · have hws : ws ≠ [] := by
      intro h0
      rw [processLines_count h, h0] at hn
      simp at hn
    simp [hn, hws]

/-- C8, witness: `clearAll` plus an add on an empty registry: zero lines
written, so the comment is emitted before the appended entry and the file is
non-empty. -/
theorem C8_witness :
    replace_export (some []) ("/p".toList) ("h".toList)
      (some ("ro".toList)) true =
      { registry := some ((if (0 : Nat) = 0 then
          ([] : List PyStr) ++ [ansibleComment] else []) ++
          (match some ("ro".toList) with
           | some oo => [_write_exports [(("/p".toList : PyStr),
               ("h".toList : PyStr), oo)]]
           | none => [])),
        tmpLeft := false, error := none } ∧
    (0 : Nat) = ([] : List PyStr).length ∧
    (if (0 : Nat) = 0 then ([] : List PyStr) ++ [ansibleComment] else []) ++
      (match some ("ro".toList) with
       | some oo => [_write_exports [(("/p".toList : PyStr),
           ("h".toList : PyStr), oo)]]
       | none => []) ≠ [] :=
  C8_comment_guard [] ("/p".toList) ("h".toList) (some ("ro".toList))
    true [] 0 (by decide)

/-- C9, counterexample: an add whose client string contains a space
(`"a b"`) serializes to a line that re-parses as two different entries, so
the resulting registry contains zero (not exactly one) entries with the
target `(path, lowercase client)` key — refuting the unrestricted claim. -/
theorem C9_counterexample :
    (replace_export (some []) ("/p".toList) ("a b".toList)
      (some ("ro".toList)) false).error = none ∧
    fileEntries ((replace_export (some []) ("/p".toList) ("a b".toList)
      (some ("ro".toList)) false).registry.getD []) =
      .ok [("/p".toList, "a".toList, []),
           ("/p".toList, "b".toList, "ro".toList)] ∧
    ([(("/p".toList : PyStr), ("a".toList : PyStr), ([] : PyStr)),
      ("/p".toList, "b".toList, "ro".toList)].filter
      (fun e => pyMatch e ("/p".toList) ("a b".toList))) = [] :=
  ⟨by decide, by decide, by decide⟩

/-- C9, amended: for well-formed lines and shlex-safe entries (`goodEntry`),
every successful add rewrite yields a registry whose entries are exactly the
previous entries with every `(path, case-insensitive client)` match removed
(all of them, when `clearAll` is off; everything, when it is on) followed by
the one appended target entry. -/
theorem C9_add_invariant : ∀ (lines : List PyStr) (ents : List Entry)
    (p c o : PyStr) (ca : Bool),
    fileEntries lines = .ok ents →
    (∀ e ∈ ents, goodEntry e = true) →
    (∀ l ∈ lines, lineWF l = true) →
    goodEntry (p, c, o) = true →
    ∃ out, replace_export (some lines) p c (some o) ca =
      { registry := some out, tmpLeft := false, error := none } ∧
      fileEntries out = .ok ((if ca = true then []
        else ents.filter (fun e => !pyMatch e p c)) ++ [(p, c, o)]) := by
  intro lines ents p c o ca hfe hgood hwf hgt
  obtain ⟨ws, hws, hwsfe⟩ :=
    @processLines_entries p c ca lines ents hfe hgood hwf
  have hrok := replace_export_ok (o := some o) hws
  refine ⟨_, hrok, ?_⟩
  have haddparse : _parse_export (_write_exports [(p, c, o)]) = .ok [(p, c, o)] :=
    parse_write_roundtrip (p := p) (by simp) (by simp) (by simpa using hgt)
  have haddfe : fileEntries [_write_exports [(p, c, o)]] = .ok [(p, c, o)] := by
    simp [fileEntries, haddparse]
  have hcmtfe : fileEntries [ansibleComment] = .ok [] := by decide
  have hfinal : fileEntries ((if ws.length = 0 then ws ++ [ansibleComment]
      else ws) ++ [_write_exports [(p, c, o)]]) =
      .ok ((if ca = true then [] else ents.filter (fun e => !pyMatch e p c))
        ++ [(p, c, o)]) := by
    by_cases hn : ws.length = 0
    · have hws0 : ws = [] := List.length_eq_zero.mp hn
      subst hws0
      have hb : ([] : List Entry) = (if ca = true then []
          else ents.filter (fun e => !pyMatch e p c)) := by
        simpa [fileEntries] using hwsfe
      rw [if_pos hn, ← hb]
      simpa using fileEntries_append hcmtfe haddfe
    · rw [if_neg hn]
      exact fileEntries_append hwsfe haddfe
  show fileEntries ((if ws.length = 0 then ws ++ [ansibleComment] else ws) ++
      [_write_exports [(p, c, o)]]) = .ok ((if ca = true then []
        else ents.filter (fun e => !pyMatch e p c)) ++ [(p, c, o)])
  exact hfinal

/-- C9, witness: the invariant applied to a concrete registry line
`/p a(ro) b(rw)` with an add of `(path /p, client A, options rw)`: the
old `a` entry (case-insensitive match for `A`) is removed, `b` survives, one
new entry is appended. -/
theorem C9_witness : ∃ out,
    replace_export (some ["/p a(ro) b(rw)\n".toList]) ("/p".toList)
      ("A".toList) (some ("rw".toList)) false =
      { registry := some out, tmpLeft := false, error := none } ∧
    fileEntries out = .ok ((if false = true then []
      else ([(("/p".toList : PyStr), ("a".toList : PyStr), ("ro".toList : PyStr)),
            ("/p".toList, "b".toList, "rw".toList)] : List Entry).filter
        (fun e => !pyMatch e ("/p".toList) ("A".toList))) ++
      [("/p".toList, "A".toList, "rw".toList)]) :=
  C9_add_invariant ["/p a(ro) b(rw)\n".toList]
    [("/p".toList, "a".toList, "ro".toList),
     ("/p".toList, "b".toList, "rw".toList)]
    ("/p".toList) ("A".toList) ("rw".toList) false
    (by decide) (by decide) (by decide) (by decide)

/-- C10: when a removal hits a line with several entries and some survive,
the rewritten line is `_write_exports` of the surviving entries — an
order-preserving sublist of the parsed entries, each carried unchanged — and
its serialized form is the path followed by each surviving `host(opt)` group
with the option string embedded verbatim (no re-sorting or
re-normalization). -/
theorem C10_surviving_entries : ∀ (l : PyStr) (es : List Entry) (p c : PyStr),
    _parse_export l = .ok es → lineWF l = true →
    match_export es p c = true →
    es.filter (fun e => !pyMatch e p c) ≠ [] →
    processLine p c false l =
      .ok ([_write_exports (es.filter (fun e => !pyMatch e p c))], 1) ∧
    (es.filter (fun e => !pyMatch e p c)).Sublist es ∧
    ∃ p0, (∀ e ∈ es, e.1 = p0) ∧
      _write_exports (es.filter (fun e => !pyMatch e p c)) =
        (if ' ' ∈ p0 then '"' :: p0 ++ ['"'] else p0) ++
          (((es.filter (fun e => !pyMatch e p c)).map
            (fun e => ' ' :: groupTok e)).flatten ++ ['\n']) := by
  intro l es p c hp hwf hm hfne
  obtain ⟨p0, hp0⟩ := parse_export_same_path hp
  have hsame : ∀ e ∈ es.filter (fun e => !pyMatch e p c), e.1 = p0 :=
    fun e he => hp0 e (List.mem_of_mem_filter he)
  refine ⟨?_, List.filter_sublist es, p0, hp0,
    write_exports_shape_general hfne hsame⟩
  rcases l with _ | ⟨a, r⟩
  · have h0 : _parse_export ([] : PyStr) = .ok [] := rfl
    rw [h0] at hp
    cases hp
    simp [match_export] at hm
  · by_cases ha : a = '#'
    · subst ha
      have hc : _parse_export ('#' :: r) = .ok [] :=
        parse_export_comment (by simp) hwf
      rw [hc] at hp
      cases hp
      simp [match_export] at hm
    · have hfe := filter_export_of_match hm
      have hemp : (es.filter (fun e => !pyMatch e p c)).isEmpty = false := by
        rcases hcase : es.filter (fun e => !pyMatch e p c) with _ | ⟨x, xs⟩
        · exact absurd hcase hfne
        · rfl
      simp [processLine, ha, hp, hm, hfe, hemp]

/-- C10, witness: removing client `a` from `/p a(x=1,y) b(ro)` keeps `b`
with its option string `ro` unchanged, serialized after the path. -/
theorem C10_witness :
    processLine ("/p".toList) ("a".toList) false
      ("/p a(x=1,y) b(ro)\n".toList) =
      .ok ([_write_exports (([(("/p".toList : PyStr), ("a".toList : PyStr),
          ("x=1,y".toList : PyStr)),
        ("/p".toList, "b".toList, "ro".toList)] : List Entry).filter
          (fun e => !pyMatch e ("/p".toList) ("a".toList)))], 1) ∧
    (([(("/p".toList : PyStr), ("a".toList : PyStr), ("x=1,y".toList : PyStr)),
        ("/p".toList, "b".toList, "ro".toList)] : List Entry).filter
          (fun e => !pyMatch e ("/p".toList) ("a".toList))).Sublist
      [("/p".toList, "a".toList, "x=1,y".toList),
       ("/p".toList, "b".toList, "ro".toList)] ∧
    ∃ p0, (∀ e ∈ ([(("/p".toList : PyStr), ("a".toList : PyStr),
        ("x=1,y".toList : PyStr)),
        ("/p".toList, "b".toList, "ro".toList)] : List Entry), e.1 = p0) ∧
      _write_exports (([(("/p".toList : PyStr), ("a".toList : PyStr),
          ("x=1,y".toList : PyStr)),
        ("/p".toList, "b".toList, "ro".toList)] : List Entry).filter
          (fun e => !pyMatch e ("/p".toList) ("a".toList))) =
        (if ' ' ∈ p0 then '"' :: p0 ++ ['"'] else p0) ++
          (((([(("/p".toList : PyStr), ("a".toList : PyStr),
              ("x=1,y".toList : PyStr)),
            ("/p".toList, "b".toList, "ro".toList)] : List Entry).filter
              (fun e => !pyMatch e ("/p".toList) ("a".toList))).map
            (fun e => ' ' :: groupTok e)).flatten ++ ['\n']) :=
  C10_surviving_entries ("/p a(x=1,y) b(ro)\n".toList)
    [("/p".toList, "a".toList, "x=1,y".toList),
     ("/p".toList, "b".toList, "ro".toList)]
    ("/p".toList) ("a".toList) (by decide) (by decide) (by decide) (by decide)
